import Mathlib

/-!
Shallow embedding of `igraph_dash_docset.py`, the single source file of the
igraph-dash-docset repository.  HTML documents (as parsed by BeautifulSoup /
lxml in the source) are modelled as a mutually inductive tree of element and
text nodes; the Python dict `docsyms` is modelled as an ordered association
list with Python-dict insertion semantics; the SQLite database is modelled as
a record holding the created tables, the created indexes and the rows of
`searchIndex`.  File I/O and network I/O are kept abstract: the parsed pages
and the decoded release list are inputs of the embedded functions.
-/

mutual

/-- An HTML node: either a text node or an element with a tag, an ordered
attribute list and a forest of children. -/
inductive HNode where
  | text : String → HNode
  | elem : String → List (String × String) → HForest → HNode

/-- A forest of HTML nodes (the ordered children of an element). -/
inductive HForest where
  | nil : HForest
  | cons : HNode → HForest → HForest

end

/-- Attribute lookup in an ordered attribute list (lxml's `attrib[...]` /
BeautifulSoup's `attrs[...]`; parsed attribute keys are unique). -/
def getAttr (attrs : List (String × String)) (key : String) : Option String :=
  match attrs with
  | [] => none
  | (k, v) :: rest => if k = key then some v else getAttr rest key

/-- A forest as a Lean list. -/
def forestToList : HForest → List HNode
  | .nil => []
  | .cons c rest => c :: forestToList rest

/-- The children of a node, as a Lean list (Python's `list(tag.children)`). -/
def childList (n : HNode) : List HNode :=
  match n with
  | .text _ => []
  | .elem _ _ cs => forestToList cs

/-- Whether the char list `l` starts with the char list `p`
(Python `str.startswith`, at the character level). -/
def charsStartWith : List Char → List Char → Bool
  | _, [] => true
  | [], _ :: _ => false
  | a :: as, b :: bs => a = b && charsStartWith as bs

/-- Whether the char list `sub` occurs contiguously inside `l`
(Python's `sub in s` for strings, at the character level). -/
def charsContain (sub : List Char) : List Char → Bool
  | [] => sub.isEmpty
  | a :: rest => charsStartWith (a :: rest) sub || charsContain sub rest

/-- Python `s.startswith(p)`. -/
def pyStartsWith (s p : String) : Bool := charsStartWith s.toList p.toList

/-- Python `s.endswith(p)`. -/
def pyEndsWith (s p : String) : Bool := charsStartWith s.toList.reverse p.toList.reverse

/-- Python `sub in s` for strings. -/
def pyContains (s sub : String) : Bool := charsContain sub.toList s.toList

/-- Helper for `pySplit`: walk the chars, accumulating the current token in
reverse. -/
def splitWsAux : List Char → List Char → List String
  | [], acc => if acc.isEmpty then [] else [String.mk acc.reverse]
  | c :: rest, acc =>
    if c.isWhitespace then
      (if acc.isEmpty then [] else [String.mk acc.reverse]) ++ splitWsAux rest []
    else splitWsAux rest (c :: acc)

/-- Python `s.split()` with no separator: split on whitespace runs, dropping
empty tokens. -/
def pySplit (s : String) : List String := splitWsAux s.toList []

/-- Python `s.strip()`: remove leading and trailing whitespace. -/
def pyStrip (s : String) : String :=
  String.mk ((s.toList.dropWhile Char.isWhitespace).reverse.dropWhile
    Char.isWhitespace).reverse

mutual

/-- Concatenated text of a node (lxml's `text_content()`, BeautifulSoup's
`.text`): all text in the subtree, in document order. -/
def textContentNode : HNode → String
  | .text s => s
  | .elem _ _ cs => textContentForest cs

/-- Concatenated text of a forest, in document order. -/
def textContentForest : HForest → String
  | .nil => ""
  | .cons c rest => textContentNode c ++ textContentForest rest

end

mutual

/-- All elements with the given tag in a subtree, in document order,
the subtree's own root included when it matches
(BeautifulSoup `find_all`, lxml `findall("//tag")`). -/
def findAllTagNode (tag : String) : HNode → List HNode
  | .text _ => []
  | .elem t attrs cs =>
    (if t = tag then [HNode.elem t attrs cs] else []) ++ findAllTagForest tag cs

/-- All elements with the given tag in a forest, in document order. -/
def findAllTagForest (tag : String) : HForest → List HNode
  | .nil => []
  | .cons c rest => findAllTagNode tag c ++ findAllTagForest tag rest

end

/-- The symbol record stored in `docsyms`: `(name, kind, link)`. -/
abbrev SymRec := String × String × String

/-- The `docsyms` Python dict: an insertion-ordered association list. -/
abbrev SymTable := List (String × SymRec)

/-- Dict lookup (`docsyms[name]`). -/
def dictLookup (m : SymTable) (k : String) : Option SymRec :=
  match m with
  | [] => none
  | (k', v) :: rest => if k' = k then some v else dictLookup rest k

/-- Dict membership (`name in docsyms`). -/
def dictContains (m : SymTable) (k : String) : Bool :=
  (dictLookup m k).isSome

/-- Dict update (`docsyms[name] = v`): replaces in place when the key is
present (keeping its position), appends otherwise — Python dict semantics. -/
def dictInsert (m : SymTable) (k : String) (v : SymRec) : SymTable :=
  match m with
  | [] => [(k, v)]
  | (k', v') :: rest =>
    if k' = k then (k, v) :: rest else (k', v') :: dictInsert rest k v

/-- Dict values in insertion order (`docsyms.values()`). -/
def dictValues (m : SymTable) : List SymRec := m.map Prod.snd

/-- The provisional kind guess from the name alone
(source lines 131-136). -/
def classifyName (name : String) : String :=
  if pyEndsWith name "_t" then "Type"
  else if pyContains name "_rngtype_" then "Type"
  else "Function"

/-- The exceptions the extraction loop can raise on a malformed `dt` entry. -/
inductive ExtractError where
  | indexError
  | keyError
  | attributeError
deriving DecidableEq

/-- Processing of one `dt` entry of the index page (source lines 126-128):
`ch = list(tag.children)`, `name = ch[1].text.split()[0]`,
`link = ch[1].attrs["href"].strip()`.  `ch[1]` on a short list raises
IndexError; `split()[0]` on whitespace-only text raises IndexError; a missing
`href` key raises KeyError; `.attrs` on a text node raises AttributeError. -/
def extractEntry (dt : HNode) : Except ExtractError (String × String) :=
  match (childList dt)[1]? with
  | none => .error .indexError
  | some c =>
    match (pySplit (textContentNode c)).head? with
    | none => .error .indexError
    | some name =>
      match c with
      | .text _ => .error .attributeError
      | .elem _ attrs _ =>
        match getAttr attrs "href" with
        | none => .error .keyError
        | some href => .ok (name, pyStrip href)

/-- The extraction loop over the `dt` list, threading the `docsyms` dict;
any exception aborts the whole loop (source lines 125-138). -/
def extractAllAux (acc : SymTable) : List HNode → Except ExtractError SymTable
  | [] => .ok acc
  | dt :: rest =>
    match extractEntry dt with
    | .error e => .error e
    | .ok (name, link) =>
      extractAllAux (dictInsert acc name (name, classifyName name, link)) rest

/-- Extraction of the symbol table from the index page's `dt` entries,
starting from the empty dict (`docsyms = {}`). -/
def extractAll (dts : List HNode) : Except ExtractError SymTable :=
  extractAllAux [] dts

/-- The child of a forest at a given sibling index. -/
def forestGet : HForest → Nat → Option HNode
  | .nil, _ => none
  | .cons c _, 0 => some c
  | .cons _ rest, n + 1 => forestGet rest n

/-- The node of a tree at a given root path (list of sibling indices). -/
def nodeAt (n : HNode) : List Nat → Option HNode
  | [] => some n
  | i :: p =>
    match n with
    | .text _ => none
    | .elem _ _ cs =>
      match forestGet cs i with
      | none => none
      | some c => nodeAt c p

/-- The ancestor `k` levels above the node at path `p` (lxml's `..` steps:
stepping above the root element yields nothing, so the lookup fails when the
node is less than `k` levels deep). -/
def ancestorAt (root : HNode) (p : List Nat) (k : Nat) : Option HNode :=
  if k ≤ p.length then nodeAt root (p.take (p.length - k)) else none

mutual

/-- The first element with the given tag in a node's subtree (the node
itself included), in document order. -/
def findTagNode (tag : String) : HNode → Option HNode
  | .text _ => none
  | .elem t attrs cs =>
    if t = tag then some (.elem t attrs cs) else findTagForest tag cs

/-- The first element with the given tag in a forest, in document order. -/
def findTagForest (tag : String) : HForest → Option HNode
  | .nil => none
  | .cons c rest =>
    match findTagNode tag c with
    | some r => some r
    | none => findTagForest tag rest

end

/-- The first `pre` element among the STRICT descendants of a node, in
document order: lxml's ElementPath `..//pre` step excludes the context node
itself. -/
def descendantPre (anc : HNode) : Option HNode :=
  match anc with
  | .text _ => none
  | .elem _ _ cs => findTagForest "pre" cs

/-- Classification of a declaration snippet by the prefix of its stripped
text (source lines 154-162), falling back to the incoming kind when no
prefix matches. -/
def classifyDecl (code kind : String) : String :=
  if pyStartsWith code "typedef enum" then "Enum"
  else if pyStartsWith code "typedef struct" then "Struct"
  else if pyStartsWith code "typedef" then "Type"
  else if pyStartsWith code "#define" then "Define"
  else kind

/-- Kind refinement for the anchor at path `p` (source lines 151-162):
`pre = a.find("../../../../..//pre")` walks exactly five ancestor levels up
and then descends to the first `pre` element; when found, the kind follows
the prefix of the `pre`'s trimmed text, otherwise the incoming kind is kept.
The lookup is done on the tree as mutated so far, but the mutations only
insert empty anchor elements, which contain no `pre` element and no text, so
the lookup on the original tree yields the same `pre` with the same text. -/
def refineKindAt (root : HNode) (p : List Nat) (kind : String) : String :=
  match ancestorAt root p 5 with
  | none => kind
  | some anc =>
    match descendantPre anc with
    | none => kind
    | some pre => classifyDecl (pyStrip (textContentNode pre)) kind

/-- The `name` attribute of an `a` element (lxml `//a[@name]` match). -/
def isNamedAnchor : HNode → Option String
  | .text _ => none
  | .elem t attrs _ => if t = "a" then getAttr attrs "name" else none

/-- The injected anchor element (source lines 167-170):
`<a name='//apple_ref/cpp/<kind>/<name>' class='dashAnchor' />`. -/
def mkDashAnchor (kind name : String) : HNode :=
  .elem "a" [("name", "//apple_ref/cpp/" ++ kind ++ "/" ++ name),
             ("class", "dashAnchor")] .nil

mutual

/-- One content page pass over a node (source lines 144-171): the source
first snapshots `anchors = tree.findall("//a[@name]")` on the unmodified
tree and then, in document order, refines the kind of each anchor whose name
is in `docsyms`, updates `docsyms`, and inserts the injected anchor as the
next sibling.  The recursion reproduces that order: an element's own match
is handled by `processForest` in its parent's frame; the injected siblings
are never scrutinised because they are absent from the snapshot.  The root
element itself is never matched: in lxml it has no parent to insert into. -/
def processNode (root : HNode) (syms : SymTable) (path : List Nat) :
    HNode → HNode × SymTable
  | .text s => (.text s, syms)
  | .elem tag attrs cs =>
    let r := processForest root syms path 0 cs
    (.elem tag attrs r.1, r.2)

/-- One content page pass over the children of an element; `path` is the
path of the parent element, `i` the sibling index of the first child. -/
def processForest (root : HNode) (syms : SymTable) (path : List Nat) (i : Nat) :
    HForest → HForest × SymTable
  | .nil => (.nil, syms)
  | .cons c rest =>
    match isNamedAnchor c with
    | some name =>
      match dictLookup syms name with
      | some (_, kind0, link) =>
        let kind1 := refineKindAt root (path ++ [i]) kind0
        let syms1 := dictInsert syms name (name, kind1, link)
        let r1 := processNode root syms1 (path ++ [i]) c
        let r2 := processForest root r1.2 path (i + 1) rest
        (.cons r1.1 (.cons (mkDashAnchor kind1 name) r2.1), r2.2)
      | none =>
        let r1 := processNode root syms (path ++ [i]) c
        let r2 := processForest root r1.2 path (i + 1) rest
        (.cons r1.1 r2.1, r2.2)
    | none =>
      let r1 := processNode root syms (path ++ [i]) c
      let r2 := processForest root r1.2 path (i + 1) rest
      (.cons r1.1 r2.1, r2.2)

end

/-- The refine-and-inject pass over one parsed content page. -/
def processPage (syms : SymTable) (page : HNode) : HNode × SymTable :=
  processNode page syms [] page

/-- The loop over all `igraph-*.html` content pages (source line 143),
threading `docsyms` and returning the rewritten pages in order. -/
def processPages (syms : SymTable) : List HNode → List HNode × SymTable
  | [] => ([], syms)
  | p :: rest =>
    let r1 := processPage syms p
    let r2 := processPages r1.2 rest
    (r1.1 :: r2.1, r2.2)

/-- Whether a node is an injected anchor, identified by its distinguishing
`class='dashAnchor'` attribute. -/
def isDashAnchor : HNode → Bool
  | .text _ => false
  | .elem _ attrs _ =>
    match getAttr attrs "class" with
    | some v => v = "dashAnchor"
    | none => false

mutual

/-- Erase every `dashAnchor`-classed element from a node's subtree. -/
def removeDashNode : HNode → HNode
  | .text s => .text s
  | .elem t attrs cs => .elem t attrs (removeDashForest cs)

/-- Erase every `dashAnchor`-classed element from a forest. -/
def removeDashForest : HForest → HForest
  | .nil => .nil
  | .cons c rest =>
    if isDashAnchor c then removeDashForest rest
    else .cons (removeDashNode c) (removeDashForest rest)

end

mutual

/-- Whether a node's subtree contains no `dashAnchor`-classed element
below it. -/
def noDashNode : HNode → Bool
  | .text _ => true
  | .elem _ _ cs => noDashForest cs

/-- Whether a forest contains no `dashAnchor`-classed element. -/
def noDashForest : HForest → Bool
  | .nil => true
  | .cons c rest => !isDashAnchor c && noDashNode c && noDashForest rest

end

/-- Serialisation of an attribute list back to markup. -/
def serializeAttrs : List (String × String) → String
  | [] => ""
  | (k, v) :: rest => " " ++ k ++ "=\x22" ++ v ++ "\x22" ++ serializeAttrs rest

mutual

/-- Serialisation of a node back to markup (lxml `tostring`). -/
def serializeNode : HNode → String
  | .text s => s
  | .elem t attrs cs =>
    "<" ++ t ++ serializeAttrs attrs ++ ">" ++ serializeForest cs ++ "</" ++ t ++ ">"

/-- Serialisation of a forest back to markup. -/
def serializeForest : HForest → String
  | .nil => ""
  | .cons c rest => serializeNode c ++ serializeForest rest

end

/-- A row of the `searchIndex` table. -/
structure DBRow where
  id : Nat
  name : String
  type : String
  path : String
deriving DecidableEq

/-- The SQLite database: created tables, created indexes, the rows of
`searchIndex`, and the next auto-increment id. -/
structure DB where
  tables : List String
  indexes : List String
  rows : List DBRow
  nextId : Nat
deriving DecidableEq

/-- The errors of the indexing stage: the two SQL DDL failures, and a
propagated extraction exception. -/
inductive RunError where
  | tableAlreadyExists
  | indexAlreadyExists
  | extract (e : ExtractError)
deriving DecidableEq

/-- `CREATE TABLE searchIndex(id INTEGER PRIMARY KEY, name TEXT, type TEXT,
path TEXT);` (source lines 111-113): fails when a table of that name already
exists; nothing is dropped or reused. -/
def createSearchIndexTable (db : DB) : Except RunError DB :=
  if db.tables.contains "searchIndex" then .error .tableAlreadyExists
  else .ok { db with tables := db.tables ++ ["searchIndex"] }

/-- `CREATE UNIQUE INDEX anchor ON searchIndex (name, type, path);`
(source line 114). -/
def createAnchorIndex (db : DB) : Except RunError DB :=
  if db.indexes.contains "anchor" then .error .indexAlreadyExists
  else .ok { db with indexes := db.indexes ++ ["anchor"] }

/-- Whether the table already holds a row with the given
`(name, type, path)` triple. -/
def hasTriple (rows : List DBRow) (t : SymRec) : Bool :=
  rows.any fun r => r.name = t.1 && r.type = t.2.1 && r.path = t.2.2

/-- `INSERT OR IGNORE INTO searchIndex(name, type, path) VALUES (?,?,?)`
(source lines 178-181): under the unique index on `(name, type, path)` the
insert is skipped, not failed, when the triple is already present. -/
def insertOrIgnore (db : DB) (t : SymRec) : DB :=
  if hasTriple db.rows t then db
  else { db with rows := db.rows ++ [⟨db.nextId, t.1, t.2.1, t.2.2⟩],
                 nextId := db.nextId + 1 }

/-- The number of rows of the table carrying a given `(name, type, path)`
triple. -/
def countTriple (rows : List DBRow) (t : SymRec) : Nat :=
  (rows.filter fun r => r.name = t.1 && r.type = t.2.1 && r.path = t.2.2).length

/-- The final insertion loop over `docsyms.values()` (source lines 177-181). -/
def insertAll (db : DB) (syms : List SymRec) : DB :=
  syms.foldl insertOrIgnore db

/-- `create_index_from_igraph_documentation` (source lines 99-181), with the
parsed index page and the parsed content pages (in glob order) as inputs:
create the table and the unique index, extract `docsyms` from the index
page's `dt` entries, run the refine-and-inject pass over every content page,
and insert all final records.  Returns the final database and the rewritten
pages; any error aborts the whole stage. -/
def create_index_from_igraph_documentation (indexPage : HNode)
    (contentPages : List HNode) (db : DB) :
    Except RunError (DB × List HNode) :=
  match createSearchIndexTable db with
  | .error e => .error e
  | .ok db1 =>
    match createAnchorIndex db1 with
    | .error e => .error e
    | .ok db2 =>
      match extractAll (findAllTagNode "dt" indexPage) with
      | .error e => .error (.extract e)
      | .ok syms =>
        let r := processPages syms contentPages
        .ok (insertAll db2 (dictValues r.2), r.1)

/-- One entry of the GitHub releases API response, with the fields the
source reads: `prerelease`, `draft`, `tag_name`, and the
`browser_download_url` of each asset in listing order. -/
structure Release where
  prerelease : Bool
  draft : Bool
  tag_name : String
  assets : List String
deriving DecidableEq

/-- Release selection (source lines 41-43): the first entry of the listing
that is neither a prerelease nor a draft. -/
def selectRelease (data : List Release) : Option Release :=
  data.find? fun e => !e.prerelease && !e.draft

/-- `download_release` (source lines 25-63): returns the selected release's
tag name as the version, or `none` (after logging an error) when no entry
qualifies. -/
def download_release (data : List Release) : Option String :=
  (selectRelease data).map Release.tag_name

/-- The asset URL the source downloads: `release["assets"][0]
["browser_download_url"]` (source line 51), the first listed asset of the
selected release. -/
def downloadedAssetUrl (data : List Release) : Option String :=
  (selectRelease data).bind fun r => r.assets.head?

/-- The top-level stages `main` can run (source lines 218-230). -/
inductive Stage where
  | downloadRelease
  | createDocset
  | createDashSubmission
deriving DecidableEq

/-- The stages `main` performs (source lines 222-228): when
`download_release` returns `None`, `main` returns at once and the
docset-building stages never run. -/
def mainStages (data : List Release) : List Stage :=
  match download_release data with
  | none => [Stage.downloadRelease]
  | some _ => [Stage.downloadRelease, Stage.createDocset, Stage.createDashSubmission]

/-- Concrete fixture: a well-formed `dt` entry of the index page, with a
leading text child and an `a` child carrying the link and the name. -/
def exDtGood : HNode :=
  .elem "dt" [] (.cons (.text "\n")
    (.cons (.elem "a" [("href", "a.html#igraph_foo")]
      (.cons (.text "igraph_foo — does things") .nil)) .nil))

/-- Concrete fixture: a malformed `dt` entry with no children. -/
def exDtBad : HNode := .elem "dt" [] .nil

/-- Concrete fixture: a minimal content page with one named marker. -/
def exMarkerPage (n : String) : HNode :=
  .elem "html" [] (.cons (.elem "a" [("name", n)] .nil) .nil)

/-- Concrete fixture: a one-symbol `docsyms` table. -/
def exSyms (n k l : String) : SymTable := [(n, (n, k, l))]

/-- Concrete fixture: a content page whose marker for `igraph_foo` sits five
levels below an ancestor that contains a `typedef struct` declaration
block. -/
def exStructPage : HNode :=
  .elem "html" []
    (.cons (.elem "div" []
      (.cons (.elem "pre" [("class", "programlisting")]
        (.cons (.text "typedef struct Foo { int a; } igraph_foo;") .nil))
      (.cons (.elem "d2" []
        (.cons (.elem "d3" []
          (.cons (.elem "d4" []
            (.cons (.elem "a" [("name", "igraph_foo")] .nil) .nil))
          .nil))
        .nil))
      .nil)))
    .nil)

/-- Concrete fixture: a forest of three matched markers. -/
def exTriForest : HForest :=
  .cons (.elem "a" [("name", "igraph_a")] .nil)
    (.cons (.elem "a" [("name", "igraph_b")] .nil)
      (.cons (.elem "a" [("name", "igraph_c")] .nil) .nil))

/-- Concrete fixture: a three-symbol `docsyms` table. -/
def exTriSyms : SymTable :=
  [("igraph_a", ("igraph_a", "Function", "a.html")),
   ("igraph_b", ("igraph_b", "Type", "b.html")),
   ("igraph_c", ("igraph_c", "Function", "c.html"))]

/-!  Theorems.  First a set of shared helper lemmas about the dict and the
extraction loop, then one theorem (with witness where hypotheses occur)
per claim. -/

theorem dictLookup_dictInsert_self (m : SymTable) (k : String) (v : SymRec) :
    dictLookup (dictInsert m k v) k = some v := by
  induction m with
  | nil => simp [dictInsert, dictLookup]
  | cons kv rest ih =>
    obtain ⟨k', v'⟩ := kv
    by_cases h : k' = k
    · simp [dictInsert, dictLookup, h]
    · simp [dictInsert, dictLookup, h, ih]

theorem dictLookup_dictInsert_ne (m : SymTable) (k k' : String) (v : SymRec)
    (h : k ≠ k') : dictLookup (dictInsert m k v) k' = dictLookup m k' := by
  induction m with
  | nil => simp [dictInsert, dictLookup, h]
  | cons kv rest ih =>
    obtain ⟨k0, v0⟩ := kv
    by_cases h0 : k0 = k
    · simp [dictInsert, dictLookup, h0, h]
    · simp [dictInsert, dictLookup, h0, ih]

theorem extractAllAux_ok_append (ds : List HNode) :
    ∀ (acc m : SymTable) (es : List HNode), extractAllAux acc ds = .ok m →
      extractAllAux acc (ds ++ es) = extractAllAux m es := by
  induction ds with
  | nil =>
    intro acc m es h
    simp only [extractAllAux] at h
    cases h
    simp
  | cons d rest ih =>
    intro acc m es h
    simp only [extractAllAux, List.cons_append] at h ⊢
    cases hd : extractEntry d with
    | error e => rw [hd] at h; exact absurd h (by simp)
    | ok nl =>
      obtain ⟨n, l⟩ := nl
      rw [hd] at h
      exact ih _ _ _ h

theorem extractAllAux_error (bad : HNode) (e : ExtractError)
    (hbad : extractEntry bad = .error e) (post : List HNode) (pre : List HNode) :
    ∀ (acc : SymTable), (∀ d ∈ pre, ∃ r, extractEntry d = .ok r) →
      extractAllAux acc (pre ++ bad :: post) = .error e := by
  induction pre with
  | nil => intro acc _; simp [extractAllAux, hbad]
  | cons d rest ih =>
    intro acc hok
    obtain ⟨⟨n, l⟩, hd⟩ := hok d (by simp)
    simp only [extractAllAux, List.cons_append, hd]
    exact ih _ fun d' hd' => hok d' (by simp [hd'])

/-- C2: provisional classification is a function of the name alone: a name
ending in `_t` maps to `Type`, a name containing `_rngtype_` maps to
`Type`, any other name maps to `Function`; in particular `igraph_vector_t`
and `igraph_rngtype_mt19937` map to `Type` and `igraph_add_edge` maps to
`Function`. -/
theorem C2_provisional_classification (name : String) :
    (pyEndsWith name "_t" = true → classifyName name = "Type") ∧
    (pyContains name "_rngtype_" = true → classifyName name = "Type") ∧
    (pyEndsWith name "_t" = false → pyContains name "_rngtype_" = false →
      classifyName name = "Function") ∧
    classifyName "igraph_vector_t" = "Type" ∧
    classifyName "igraph_rngtype_mt19937" = "Type" ∧
    classifyName "igraph_add_edge" = "Function" := by
  refine ⟨fun h => by simp [classifyName, h], fun h => ?_,
    fun h1 h2 => by simp [classifyName, h1, h2], by decide, by decide, by decide⟩
  by_cases h1 : pyEndsWith name "_t" <;> simp [classifyName, h1, h]

/-- Witness for C2, applied at the three concrete names of the claim. -/
theorem C2_provisional_classification_witness :
    classifyName "igraph_vector_t" = "Type" ∧
    classifyName "igraph_rngtype_mt19937" = "Type" ∧
    classifyName "igraph_add_edge" = "Function" :=
  ⟨(C2_provisional_classification "igraph_vector_t").1 (by decide),
   (C2_provisional_classification "igraph_rngtype_mt19937").2.1 (by decide),
   (C2_provisional_classification "igraph_add_edge").2.2.1 (by decide) (by decide)⟩

/-- C3: extractor mapping contract: no `dt` entries yields the empty
mapping, not an error; a `dt` entry whose second child is an element with
an `href` attribute yields exactly one record, keyed by the first
whitespace-delimited token of that child's text, with the stripped `href`
as location; appending an entry performs a dict update of the mapping, and
updating an existing key overwrites the earlier record. -/
theorem C3_extractor_contract :
    extractAll [] = .ok [] ∧
    (∀ (dt : HNode) (tag : String) (attrs : List (String × String))
        (cs : HForest) (name : String) (toks : List String) (href : String),
      (childList dt)[1]? = some (.elem tag attrs cs) →
      pySplit (textContentNode (.elem tag attrs cs)) = name :: toks →
      getAttr attrs "href" = some href →
      extractEntry dt = .ok (name, pyStrip href)) ∧
    (∀ (ds : List HNode) (m : SymTable) (d : HNode) (n l : String),
      extractAll ds = .ok m → extractEntry d = .ok (n, l) →
      extractAll (ds ++ [d]) = .ok (dictInsert m n (n, classifyName n, l))) ∧
    (∀ (m : SymTable) (k : String) (v : SymRec),
      dictLookup (dictInsert m k v) k = some v) := by
  refine ⟨rfl, ?_, ?_, dictLookup_dictInsert_self⟩
  · intro dt tag attrs cs name toks href h1 h2 h3
    simp [extractEntry, h1, h2, h3]
  · intro ds m d n l h1 h2
    unfold extractAll at h1 ⊢
    rw [extractAllAux_ok_append ds [] m [d] h1]
    simp [extractAllAux, h2]

/-- Witness for C3: the fixture entry yields its record, and a one-entry
index page yields the one-record mapping. -/
theorem C3_extractor_contract_witness :
    extractEntry exDtGood = .ok ("igraph_foo", "a.html#igraph_foo") ∧
    extractAll [exDtGood] =
      .ok [("igraph_foo", ("igraph_foo", "Function", "a.html#igraph_foo"))] ∧
    dictLookup (dictInsert [] "k" ("k", "Type", "x")) "k" =
      some ("k", "Type", "x") := by
  refine ⟨C3_extractor_contract.2.1 exDtGood "a" [("href", "a.html#igraph_foo")]
      _ "igraph_foo" ["—", "does", "things"] "a.html#igraph_foo" rfl (by decide) rfl, ?_,
    C3_extractor_contract.2.2.2 [] "k" ("k", "Type", "x")⟩
  have h := C3_extractor_contract.2.2.1 [] [] exDtGood "igraph_foo" "a.html#igraph_foo"
    C3_extractor_contract.1
    (C3_extractor_contract.2.1 exDtGood "a" [("href", "a.html#igraph_foo")]
      _ "igraph_foo" ["—", "does", "things"] "a.html#igraph_foo" rfl (by decide) rfl)
  simpa [dictInsert] using h

/-- C10: a single malformed `dt` entry aborts the whole extraction: fewer
than two children raises IndexError at `ch[1]`; a second child whose text
has no whitespace-delimited token raises IndexError at `split()[0]`; a
second child element without an `href` attribute raises KeyError; and the
exception propagates out of the loop even when every other entry is
well-formed. -/
theorem C10_malformed_entry_aborts :
    (∀ dt : HNode, (childList dt).length < 2 →
      extractEntry dt = .error .indexError) ∧
    (∀ (dt c : HNode), (childList dt)[1]? = some c →
      pySplit (textContentNode c) = [] →
      extractEntry dt = .error .indexError) ∧
    (∀ (dt : HNode) (tag : String) (attrs : List (String × String))
        (cs : HForest) (name : String) (toks : List String),
      (childList dt)[1]? = some (.elem tag attrs cs) →
      pySplit (textContentNode (.elem tag attrs cs)) = name :: toks →
      getAttr attrs "href" = none →
      extractEntry dt = .error .keyError) ∧
    (∀ (pre post : List HNode) (bad : HNode) (e : ExtractError),
      (∀ d ∈ pre, ∃ r, extractEntry d = .ok r) →
      extractEntry bad = .error e →
      extractAll (pre ++ bad :: post) = .error e) := by
  refine ⟨?_, ?_, ?_, ?_⟩
  · intro dt h
    have hn : (childList dt)[1]? = none := by
      rw [List.getElem?_eq_none_iff]
      omega
    simp [extractEntry, hn]
  · intro dt c h1 h2
    simp [extractEntry, h1, h2]
  · intro dt tag attrs cs name toks h1 h2 h3
    simp [extractEntry, h1, h2, h3]
  · intro pre post bad e hok hbad
    exact extractAllAux_error bad e hbad post pre [] hok

/-- Witness for C10: the childless fixture entry raises IndexError, and its
presence after a well-formed entry aborts the whole extraction. -/
theorem C10_malformed_entry_aborts_witness :
    extractEntry exDtBad = .error .indexError ∧
    extractAll [exDtGood, exDtBad] = .error .indexError := by
  refine ⟨C10_malformed_entry_aborts.1 exDtBad (by decide), ?_⟩
  have h := C10_malformed_entry_aborts.2.2.2 [exDtGood] [] exDtBad .indexError
    (by
      intro d hd
      simp at hd
      subst hd
      exact ⟨("igraph_foo", "a.html#igraph_foo"), rfl⟩)
    (C10_malformed_entry_aborts.1 exDtBad (by decide))
  simpa using h

theorem hasTriple_false_iff (rows : List DBRow) (t : SymRec) :
    hasTriple rows t = false ↔ countTriple rows t = 0 := by
  simp [hasTriple, countTriple, List.any_eq_false, List.length_eq_zero,
    List.filter_eq_nil_iff]

theorem countTriple_append (r1 r2 : List DBRow) (t : SymRec) :
    countTriple (r1 ++ r2) t = countTriple r1 t + countTriple r2 t := by
  simp [countTriple, List.filter_append]

/-- C6: the persisted table enforces uniqueness of `(name, type, path)`:
inserting a row whose triple is already present is a no-op rather than an
error, inserting the same triple twice equals inserting it once, doing so
from a state without the triple leaves exactly one matching row, and an
insert preserves the at-most-one-row-per-triple invariant. -/
theorem C6_insert_idempotent :
    (∀ (db : DB) (t : SymRec), hasTriple db.rows t = true →
      insertOrIgnore db t = db) ∧
    (∀ (db : DB) (t : SymRec),
      insertOrIgnore (insertOrIgnore db t) t = insertOrIgnore db t) ∧
    (∀ (db : DB) (t : SymRec), hasTriple db.rows t = false →
      countTriple (insertOrIgnore (insertOrIgnore db t) t).rows t = 1) ∧
    (∀ (db : DB) (t u : SymRec), countTriple db.rows t ≤ 1 →
      countTriple (insertOrIgnore db u).rows t ≤ 1) := by
  have key : ∀ (db : DB) (t : SymRec), hasTriple db.rows t = false →
      insertOrIgnore db t =
        { db with rows := db.rows ++ [⟨db.nextId, t.1, t.2.1, t.2.2⟩],
                  nextId := db.nextId + 1 } := by
    intro db t h
    simp [insertOrIgnore, h]
  have noop : ∀ (db : DB) (t : SymRec), hasTriple db.rows t = true →
      insertOrIgnore db t = db := by
    intro db t h
    simp [insertOrIgnore, h]
  have hfresh : ∀ (db : DB) (t : SymRec),
      hasTriple (db.rows ++ [⟨db.nextId, t.1, t.2.1, t.2.2⟩]) t = true := by
    intro db t
    simp [hasTriple, List.any_append, hasTriple]
  refine ⟨noop, ?_, ?_, ?_⟩
  · intro db t
    by_cases h : hasTriple db.rows t = true
    · rw [noop db t h, noop db t h]
    · replace h : hasTriple db.rows t = false := by simpa using h
      rw [key db t h]
      exact noop _ t (hfresh db t)
  · intro db t h
    rw [key db t h, noop _ t (hfresh db t)]
    simp only [countTriple_append]
    rw [(hasTriple_false_iff db.rows t).mp h]
    simp [countTriple, List.filter]
  · intro db t u h
    obtain ⟨t1, t2, t3⟩ := t
    obtain ⟨u1, u2, u3⟩ := u
    by_cases hu : hasTriple db.rows (u1, u2, u3) = true
    · rw [noop db _ hu]
      exact h
    · replace hu : hasTriple db.rows (u1, u2, u3) = false := by simpa using hu
      rw [key db _ hu, countTriple_append]
      by_cases hp : u1 = t1 ∧ u2 = t2 ∧ u3 = t3
      · obtain ⟨e1, e2, e3⟩ := hp
        subst e1; subst e2; subst e3
        have h0 : countTriple db.rows (u1, u2, u3) = 0 :=
          (hasTriple_false_iff db.rows (u1, u2, u3)).mp hu
        have h1 : countTriple [(⟨db.nextId, u1, u2, u3⟩ : DBRow)] (u1, u2, u3) ≤ 1 := by
          simp [countTriple, List.filter]
        dsimp only at h0 h1 ⊢
        omega
      · have h0 : countTriple [(⟨db.nextId, u1, u2, u3⟩ : DBRow)] (t1, t2, t3) = 0 := by
          simp only [countTriple, List.filter, List.length_eq_zero]
          have : ((⟨db.nextId, u1, u2, u3⟩ : DBRow).name = t1 &&
              (⟨db.nextId, u1, u2, u3⟩ : DBRow).type = t2 &&
              (⟨db.nextId, u1, u2, u3⟩ : DBRow).path = t3) = false := by
            simp only [Bool.and_eq_false_iff]
            by_cases e1 : u1 = t1
            · by_cases e2 : u2 = t2
              · right
                simp only [decide_eq_false_iff_not]
                exact fun e3 => hp ⟨e1, e2, e3⟩
              · left; right
                simpa using e2
            · left; left
              simpa using e1
          simp [this]
        dsimp only at h0 ⊢
        omega

/-- Witness for C6: inserting `("igraph_foo", "Function", "x.html")` twice
into a fresh store leaves exactly one matching row. -/
theorem C6_insert_idempotent_witness :
    countTriple (insertOrIgnore (insertOrIgnore
        ⟨["searchIndex"], ["anchor"], [], 1⟩
        ("igraph_foo", "Function", "x.html"))
      ("igraph_foo", "Function", "x.html")).rows
      ("igraph_foo", "Function", "x.html") = 1 :=
  C6_insert_idempotent.2.2.1 ⟨["searchIndex"], ["anchor"], [], 1⟩
    ("igraph_foo", "Function", "x.html") (by decide)

/-- C8: when a table named `searchIndex` already exists in the target
database, the indexing stage fails fatally at table creation: the error
propagates out of `create_index_from_igraph_documentation` and no docset
index is produced (nothing is dropped or reused). -/
theorem C8_existing_table_fatal (db : DB) (indexPage : HNode)
    (pages : List HNode) (h : db.tables.contains "searchIndex" = true) :
    create_index_from_igraph_documentation indexPage pages db =
      .error .tableAlreadyExists := by
  have h' : "searchIndex" ∈ db.tables := by simpa using h
  simp [create_index_from_igraph_documentation, createSearchIndexTable, h']

/-- Witness for C8 on a concrete database that already has the table. -/
theorem C8_existing_table_fatal_witness :
    create_index_from_igraph_documentation (.text "") []
      ⟨["searchIndex"], [], [], 1⟩ = .error .tableAlreadyExists :=
  C8_existing_table_fatal ⟨["searchIndex"], [], [], 1⟩ (.text "") [] (by decide)

theorem find?_decomp {α : Type} (p : α → Bool) :
    ∀ (l : List α) (a : α), l.find? p = some a →
      ∃ pre post, l = pre ++ a :: post ∧ ∀ x ∈ pre, p x = false := by
  intro l
  induction l with
  | nil => intro a h; simp [List.find?] at h
  | cons x xs ih =>
    intro a h
    by_cases hx : p x = true
    · rw [List.find?_cons_of_pos _ hx] at h
      cases h
      exact ⟨[], xs, rfl, by simp⟩
    · replace hx : p x = false := by simpa using hx
      rw [List.find?_cons_of_neg _ (by simp [hx])] at h
      obtain ⟨pre, post, heq, hpre⟩ := ih a h
      subst heq
      refine ⟨x :: pre, post, rfl, ?_⟩
      intro y hy
      rcases List.mem_cons.mp hy with rfl | hy
      · exact hx
      · exact hpre y hy

/-- C9: release selection takes the first entry, in listing order, that is
neither a draft nor a prerelease; the downloaded asset is the selected
entry's first listed asset; when no entry qualifies, `download_release`
returns `none` and `main` aborts without running the docset-building
stages. -/
theorem C9_release_selection :
    (∀ (data : List Release) (r : Release), selectRelease data = some r →
      r.prerelease = false ∧ r.draft = false ∧
      ∃ pre post, data = pre ++ r :: post ∧
        ∀ e ∈ pre, e.prerelease = true ∨ e.draft = true) ∧
    (∀ (data : List Release) (r : Release) (u : String) (us : List String),
      selectRelease data = some r → r.assets = u :: us →
      downloadedAssetUrl data = some u) ∧
    (∀ data : List Release,
      (∀ e ∈ data, e.prerelease = true ∨ e.draft = true) →
      download_release data = none ∧
      mainStages data = [Stage.downloadRelease]) := by
  refine ⟨?_, ?_, ?_⟩
  · intro data r h
    have hp := List.find?_some h
    simp only [Bool.and_eq_true, Bool.not_eq_true'] at hp
    obtain ⟨pre, post, heq, hpre⟩ := find?_decomp _ data r h
    refine ⟨hp.1, hp.2, pre, post, heq, ?_⟩
    intro e he
    have hfe := hpre e he
    by_cases hb : e.prerelease = true
    · exact Or.inl hb
    · right
      replace hb : e.prerelease = false := by simpa using hb
      rw [hb] at hfe
      simpa using hfe
  · intro data r u us h ha
    simp [downloadedAssetUrl, h, ha]
  · intro data hall
    have hnone : selectRelease data = none := by
      rw [selectRelease, List.find?_eq_none]
      intro x hx
      rcases hall x hx with h1 | h1 <;> simp [h1]
    exact ⟨by simp [download_release, hnone],
      by simp [mainStages, download_release, hnone]⟩

/-- Witness for C9: a prerelease entry is skipped, the first qualifying
entry's first asset is downloaded, and an all-prerelease/draft listing
aborts the run before the docset stages. -/
theorem C9_release_selection_witness :
    downloadedAssetUrl
      [⟨true, false, "v1", ["a"]⟩, ⟨false, false, "v2", ["u1", "u2"]⟩] =
        some "u1" ∧
    download_release [⟨true, false, "v1", ["a"]⟩, ⟨false, true, "v2", ["b"]⟩] =
      none ∧
    mainStages [⟨true, false, "v1", ["a"]⟩, ⟨false, true, "v2", ["b"]⟩] =
      [Stage.downloadRelease] := by
  have h2 := C9_release_selection.2.1
    [⟨true, false, "v1", ["a"]⟩, ⟨false, false, "v2", ["u1", "u2"]⟩]
    ⟨false, false, "v2", ["u1", "u2"]⟩ "u1" ["u2"] (by decide) rfl
  have h3 := C9_release_selection.2.2
    [⟨true, false, "v1", ["a"]⟩, ⟨false, true, "v2", ["b"]⟩] (by decide)
  exact ⟨h2, h3.1, h3.2⟩

mutual

theorem processNode_absent (root : HNode) (nm : String) (syms : SymTable)
    (path : List Nat) (n : HNode) (h : dictLookup syms nm = none) :
    dictLookup (processNode root syms path n).2 nm = none := by
  cases n with
  | text s => simpa [processNode] using h
  | elem tag attrs cs =>
    simp only [processNode]
    exact processForest_absent root nm syms path 0 cs h

theorem processForest_absent (root : HNode) (nm : String) (syms : SymTable)
    (path : List Nat) (i : Nat) (cs : HForest) (h : dictLookup syms nm = none) :
    dictLookup (processForest root syms path i cs).2 nm = none := by
  cases cs with
  | nil => simpa [processForest] using h
  | cons c rest =>
    cases ha : isNamedAnchor c with
    | none =>
      simp only [processForest, ha]
      exact processForest_absent root nm _ path (i + 1) rest
        (processNode_absent root nm syms (path ++ [i]) c h)
    | some name =>
      cases hl : dictLookup syms name with
      | none =>
        simp only [processForest, ha, hl]
        exact processForest_absent root nm _ path (i + 1) rest
          (processNode_absent root nm syms (path ++ [i]) c h)
      | some trip =>
        obtain ⟨nm0, kind0, link⟩ := trip
        have hne : name ≠ nm := by
          rintro rfl
          rw [h] at hl
          exact absurd hl (by simp)
        simp only [processForest, ha, hl]
        exact processForest_absent root nm _ path (i + 1) rest
          (processNode_absent root nm _ (path ++ [i]) c
            (by rw [dictLookup_dictInsert_ne _ _ _ _ hne]; exact h))

end

theorem dictContains_dictInsert (m : SymTable) (k k' : String) (v : SymRec)
    (h : dictContains m k' = true) : dictContains (dictInsert m k v) k' = true := by
  by_cases he : k = k'
  · subst he
    simp [dictContains, dictLookup_dictInsert_self]
  · rw [dictContains, dictLookup_dictInsert_ne _ _ _ _ he]
    exact h

mutual

theorem processNode_contains (root : HNode) (nm : String) (syms : SymTable)
    (path : List Nat) (n : HNode) (h : dictContains syms nm = true) :
    dictContains (processNode root syms path n).2 nm = true := by
  cases n with
  | text s => simpa [processNode] using h
  | elem tag attrs cs =>
    simp only [processNode]
    exact processForest_contains root nm syms path 0 cs h

theorem processForest_contains (root : HNode) (nm : String) (syms : SymTable)
    (path : List Nat) (i : Nat) (cs : HForest) (h : dictContains syms nm = true) :
    dictContains (processForest root syms path i cs).2 nm = true := by
  cases cs with
  | nil => simpa [processForest] using h
  | cons c rest =>
    cases ha : isNamedAnchor c with
    | none =>
      simp only [processForest, ha]
      exact processForest_contains root nm _ path (i + 1) rest
        (processNode_contains root nm syms (path ++ [i]) c h)
    | some name =>
      cases hl : dictLookup syms name with
      | none =>
        simp only [processForest, ha, hl]
        exact processForest_contains root nm _ path (i + 1) rest
          (processNode_contains root nm syms (path ++ [i]) c h)
      | some trip =>
        obtain ⟨nm0, kind0, link⟩ := trip
        simp only [processForest, ha, hl]
        exact processForest_contains root nm _ path (i + 1) rest
          (processNode_contains root nm _ (path ++ [i]) c
            (dictContains_dictInsert _ _ _ _ h))

end

theorem isNamedAnchor_processNode (root : HNode) (syms : SymTable)
    (path : List Nat) (c : HNode) :
    isNamedAnchor (processNode root syms path c).1 = isNamedAnchor c := by
  cases c <;> simp [processNode, isNamedAnchor]

theorem isDashAnchor_processNode (root : HNode) (syms : SymTable)
    (path : List Nat) (c : HNode) :
    isDashAnchor (processNode root syms path c).1 = isDashAnchor c := by
  cases c <;> simp [processNode, isDashAnchor]

theorem isDashAnchor_mkDashAnchor (k n : String) :
    isDashAnchor (mkDashAnchor k n) = true := rfl

mutual

theorem removeDash_processNode (root : HNode) (syms : SymTable)
    (path : List Nat) (n : HNode) (h : noDashNode n = true) :
    removeDashNode (processNode root syms path n).1 = n := by
  cases n with
  | text s => simp [processNode, removeDashNode]
  | elem tag attrs cs =>
    simp only [processNode, removeDashNode]
    rw [removeDash_processForest root syms path 0 cs (by simpa [noDashNode] using h)]

theorem removeDash_processForest (root : HNode) (syms : SymTable)
    (path : List Nat) (i : Nat) (cs : HForest) (h : noDashForest cs = true) :
    removeDashForest (processForest root syms path i cs).1 = cs := by
  cases cs with
  | nil => simp [processForest, removeDashForest]
  | cons c rest =>
    rw [noDashForest] at h
    simp only [Bool.and_eq_true, Bool.not_eq_true'] at h
    obtain ⟨⟨hcd, hcn⟩, hrest⟩ := h
    cases ha : isNamedAnchor c with
    | none =>
      simp [processForest, ha, removeDashForest, isDashAnchor_processNode, hcd]
      exact ⟨removeDash_processNode root syms (path ++ [i]) c hcn,
        removeDash_processForest root _ path (i + 1) rest hrest⟩
    | some name =>
      cases hl : dictLookup syms name with
      | none =>
        simp [processForest, ha, hl, removeDashForest,
          isDashAnchor_processNode, hcd]
        exact ⟨removeDash_processNode root syms (path ++ [i]) c hcn,
          removeDash_processForest root _ path (i + 1) rest hrest⟩
      | some trip =>
        obtain ⟨nm0, kind0, link⟩ := trip
        simp [processForest, ha, hl, removeDashForest,
          isDashAnchor_processNode, hcd, isDashAnchor_mkDashAnchor]
        exact ⟨removeDash_processNode root _ (path ++ [i]) c hcn,
          removeDash_processForest root _ path (i + 1) rest hrest⟩

end

theorem charsStartWith_nil (p : List Char) : charsStartWith p [] = true := by
  cases p <;> simp [charsStartWith]

theorem charsStartWith_either : ∀ (l p q : List Char),
    charsStartWith l p = true → charsStartWith l q = true →
    charsStartWith p q = true ∨ charsStartWith q p = true := by
  intro l
  induction l with
  | nil =>
    intro p q hp hq
    cases p with
    | nil =>
      cases q with
      | nil => exact Or.inl rfl
      | cons c cs => exact absurd hq (by simp [charsStartWith])
    | cons b bs => exact absurd hp (by simp [charsStartWith])
  | cons a l ih =>
    intro p q hp hq
    cases p with
    | nil => exact Or.inr (charsStartWith_nil q)
    | cons b bs =>
      cases q with
      | nil => exact Or.inl (charsStartWith_nil (b :: bs))
      | cons c cs =>
        simp only [charsStartWith, Bool.and_eq_true, decide_eq_true_eq] at hp hq
        obtain ⟨hb, hp'⟩ := hp
        obtain ⟨hc, hq'⟩ := hq
        rcases ih bs cs hp' hq' with h | h
        · left
          simp [charsStartWith, hb ▸ hc, h]
        · right
          simp [charsStartWith, hc ▸ hb, h]

theorem charsStartWith_trans : ∀ (l p q : List Char),
    charsStartWith l p = true → charsStartWith p q = true →
    charsStartWith l q = true := by
  intro l
  induction l with
  | nil =>
    intro p q hp hq
    cases p with
    | nil =>
      cases q with
      | nil => exact rfl
      | cons c cs => exact absurd hq (by simp [charsStartWith])
    | cons b bs => exact absurd hp (by simp [charsStartWith])
  | cons a l ih =>
    intro p q hp hq
    cases q with
    | nil => exact charsStartWith_nil _
    | cons c cs =>
      cases p with
      | nil => exact absurd hq (by simp [charsStartWith])
      | cons b bs =>
        simp only [charsStartWith, Bool.and_eq_true, decide_eq_true_eq] at hp hq ⊢
        exact ⟨hq.1 ▸ hp.1, ih bs cs hp.2 hq.2⟩

theorem pyStartsWith_mutex (s p q : String)
    (hpq : charsStartWith p.toList q.toList = false)
    (hqp : charsStartWith q.toList p.toList = false)
    (hp : pyStartsWith s p = true) : pyStartsWith s q = false := by
  by_contra h
  replace h : pyStartsWith s q = true := by simpa using h
  rcases charsStartWith_either s.toList p.toList q.toList hp h with h1 | h1
  · rw [hpq] at h1
    cases h1
  · rw [hqp] at h1
    cases h1

/-- C1: kind refinement looks exactly five ancestor levels up from the
anchor and then descends to the first `pre` block; with no fifth ancestor
or no `pre` block the kind is left unchanged and no error is raised; when
the block exists, the kind becomes `Enum` for a trimmed text starting with
`typedef enum`, `Struct` for `typedef struct`, `Type` for any other
`typedef`, `Define` for `#define`, and is unchanged otherwise; and the
refine-and-inject pass never creates an entry for a name absent from the
symbol mapping. -/
theorem C1_kind_refinement :
    (∀ (root : HNode) (p : List Nat) (kind : String),
      ancestorAt root p 5 = none → refineKindAt root p kind = kind) ∧
    (∀ (root : HNode) (p : List Nat) (kind : String) (anc : HNode),
      ancestorAt root p 5 = some anc → descendantPre anc = none →
      refineKindAt root p kind = kind) ∧
    (∀ (root : HNode) (p : List Nat) (kind : String) (anc pre : HNode),
      ancestorAt root p 5 = some anc → descendantPre anc = some pre →
      refineKindAt root p kind =
        classifyDecl (pyStrip (textContentNode pre)) kind) ∧
    (∀ code kind : String,
      (pyStartsWith code "typedef enum" = true →
        classifyDecl code kind = "Enum") ∧
      (pyStartsWith code "typedef struct" = true →
        classifyDecl code kind = "Struct") ∧
      (pyStartsWith code "typedef" = true →
        pyStartsWith code "typedef enum" = false →
        pyStartsWith code "typedef struct" = false →
        classifyDecl code kind = "Type") ∧
      (pyStartsWith code "#define" = true →
        classifyDecl code kind = "Define") ∧
      (pyStartsWith code "typedef" = false →
        pyStartsWith code "#define" = false →
        classifyDecl code kind = kind)) ∧
    (∀ (syms : SymTable) (page : HNode) (nm : String),
      dictLookup syms nm = none →
      dictLookup (processPage syms page).2 nm = none) := by
  refine ⟨?_, ?_, ?_, ?_, ?_⟩
  · intro root p kind h
    simp [refineKindAt, h]
  · intro root p kind anc h1 h2
    simp [refineKindAt, h1, h2]
  · intro root p kind anc pre h1 h2
    simp [refineKindAt, h1, h2]
  · intro code kind
    refine ⟨fun h => by simp [classifyDecl, h], fun h => ?_,
      fun h h1 h2 => by simp [classifyDecl, h, h1, h2], fun h => ?_,
      fun h1 h2 => ?_⟩
    · have he : pyStartsWith code "typedef enum" = false :=
        pyStartsWith_mutex code "typedef struct" "typedef enum"
          (by decide) (by decide) h
      simp [classifyDecl, he, h]
    · have e1 : pyStartsWith code "typedef enum" = false :=
        pyStartsWith_mutex code "#define" "typedef enum" (by decide) (by decide) h
      have e2 : pyStartsWith code "typedef struct" = false :=
        pyStartsWith_mutex code "#define" "typedef struct" (by decide) (by decide) h
      have e3 : pyStartsWith code "typedef" = false :=
        pyStartsWith_mutex code "#define" "typedef" (by decide) (by decide) h
      simp [classifyDecl, e1, e2, e3, h]
    · have he : pyStartsWith code "typedef enum" = false := by
        by_contra hc
        replace hc : charsStartWith code.toList ("typedef enum").toList = true := by
          simpa [pyStartsWith] using hc
        have ht : charsStartWith code.toList ("typedef").toList = true :=
          charsStartWith_trans _ _ _ hc (by decide)
        have h1' : charsStartWith code.toList ("typedef").toList = false := h1
        rw [h1'] at ht
        cases ht
      have hs : pyStartsWith code "typedef struct" = false := by
        by_contra hc
        replace hc : charsStartWith code.toList ("typedef struct").toList = true := by
          simpa [pyStartsWith] using hc
        have ht : charsStartWith code.toList ("typedef").toList = true :=
          charsStartWith_trans _ _ _ hc (by decide)
        have h1' : charsStartWith code.toList ("typedef").toList = false := h1
        rw [h1'] at ht
        cases ht
      simp [classifyDecl, he, hs, h1, h2]
  · intro syms page nm h
    exact processNode_absent page nm syms [] page h

/-- Witness for C1: on the fixture page the marker five levels below the
root is refined to `Struct` from the adjacent `typedef struct` block, a
marker with no fifth ancestor keeps its kind, and a name absent from the
mapping never gains an entry. -/
theorem C1_kind_refinement_witness :
    refineKindAt exStructPage [0, 1, 0, 0, 0] "Type" = "Struct" ∧
    refineKindAt (exMarkerPage "igraph_foo") [0] "Function" = "Function" ∧
    dictLookup (processPage (exSyms "igraph_foo" "Type" "x.html")
      exStructPage).2 "igraph_bar" = none := by
  refine ⟨?_, ?_, ?_⟩
  · have h3 := C1_kind_refinement.2.2.1 exStructPage [0, 1, 0, 0, 0] "Type"
      _ _ rfl rfl
    rw [h3]
    decide
  · exact C1_kind_refinement.1 (exMarkerPage "igraph_foo") [0] "Function" rfl
  · exact C1_kind_refinement.2.2.2.2 (exSyms "igraph_foo" "Type" "x.html")
      exStructPage "igraph_bar" (by decide)

theorem processForest_cons_matched (root : HNode) (syms : SymTable)
    (path : List Nat) (i : Nat) (c : HNode) (rest : HForest) (name : String)
    (hc : isNamedAnchor c = some name) (hcon : dictContains syms name = true) :
    ∃ (k : String) (syms1 : SymTable),
      (∀ nm, dictContains syms nm = true → dictContains syms1 nm = true) ∧
      (processForest root syms path i (.cons c rest)).1 =
        .cons (processNode root syms1 (path ++ [i]) c).1
          (.cons (mkDashAnchor k name)
            (processForest root
              (processNode root syms1 (path ++ [i]) c).2 path (i + 1) rest).1) ∧
      (processForest root syms path i (.cons c rest)).2 =
        (processForest root
          (processNode root syms1 (path ++ [i]) c).2 path (i + 1) rest).2 := by
  have hex : ∃ v, dictLookup syms name = some v := by
    rw [dictContains] at hcon
    exact Option.isSome_iff_exists.mp hcon
  obtain ⟨⟨m0, k0, l0⟩, hl⟩ := hex
  refine ⟨refineKindAt root (path ++ [i]) k0,
    dictInsert syms name (name, refineKindAt root (path ++ [i]) k0, l0),
    fun nm h => dictContains_dictInsert _ _ _ _ h, ?_, ?_⟩ <;>
    simp [processForest, hc, hl]

/-- C4: the injected marker is an empty `a` element whose `name` attribute
is exactly `//apple_ref/cpp/<Kind>/<name>` and which carries the class
`dashAnchor`; for every matched marker it is inserted as the immediately
following sibling, so three matched markers `[A, B, C]` in document order
come out as `[A, A', B, B', C, C']`. -/
theorem C4_anchor_injection :
    (∀ kind name : String,
      mkDashAnchor kind name =
        .elem "a" [("name", "//apple_ref/cpp/" ++ kind ++ "/" ++ name),
                   ("class", "dashAnchor")] .nil ∧
      isNamedAnchor (mkDashAnchor kind name) =
        some ("//apple_ref/cpp/" ++ kind ++ "/" ++ name) ∧
      childList (mkDashAnchor kind name) = []) ∧
    (∀ (root : HNode) (syms : SymTable) (path : List Nat) (i : Nat)
        (a1 a2 a3 : HNode) (rest : HForest) (n1 n2 n3 : String),
      isNamedAnchor a1 = some n1 → isNamedAnchor a2 = some n2 →
      isNamedAnchor a3 = some n3 →
      dictContains syms n1 = true → dictContains syms n2 = true →
      dictContains syms n3 = true →
      ∃ (a1' a2' a3' : HNode) (k1 k2 k3 : String) (tail : HForest),
        (processForest root syms path i
            (.cons a1 (.cons a2 (.cons a3 rest)))).1 =
          .cons a1' (.cons (mkDashAnchor k1 n1)
            (.cons a2' (.cons (mkDashAnchor k2 n2)
              (.cons a3' (.cons (mkDashAnchor k3 n3) tail))))) ∧
        isNamedAnchor a1' = some n1 ∧ isNamedAnchor a2' = some n2 ∧
        isNamedAnchor a3' = some n3) := by
  constructor
  · intro kind name
    exact ⟨rfl, rfl, rfl⟩
  · intro root syms path i a1 a2 a3 rest n1 n2 n3 h1 h2 h3 hc1 hc2 hc3
    obtain ⟨k1, s1, mono1, e1, _⟩ := processForest_cons_matched root syms path i
      a1 (.cons a2 (.cons a3 rest)) n1 h1 hc1
    have hc2' : dictContains (processNode root s1 (path ++ [i]) a1).2 n2 = true :=
      processNode_contains root n2 s1 (path ++ [i]) a1 (mono1 n2 hc2)
    obtain ⟨k2, s2, mono2, e2, _⟩ := processForest_cons_matched root
      (processNode root s1 (path ++ [i]) a1).2 path (i + 1)
      a2 (.cons a3 rest) n2 h2 hc2'
    have hc3' : dictContains (processNode root s2 (path ++ [i + 1]) a2).2 n3 = true :=
      processNode_contains root n3 s2 (path ++ [i + 1]) a2
        (mono2 n3 (processNode_contains root n3 s1 (path ++ [i]) a1 (mono1 n3 hc3)))
    obtain ⟨k3, s3, mono3, e3, _⟩ := processForest_cons_matched root
      (processNode root s2 (path ++ [i + 1]) a2).2 path (i + 2)
      a3 rest n3 h3 hc3'
    refine ⟨(processNode root s1 (path ++ [i]) a1).1,
      (processNode root s2 (path ++ [i + 1]) a2).1,
      (processNode root s3 (path ++ [i + 2]) a3).1,
      k1, k2, k3,
      (processForest root (processNode root s3 (path ++ [i + 2]) a3).2
        path (i + 3) rest).1,
      ?_, ?_, ?_, ?_⟩
    · rw [e1, e2, e3]
    · rw [isNamedAnchor_processNode]
      exact h1
    · rw [isNamedAnchor_processNode]
      exact h2
    · rw [isNamedAnchor_processNode]
      exact h3

/-- Witness for C4 at a concrete page with three matched markers. -/
theorem C4_anchor_injection_witness :
    ∃ (a1' a2' a3' : HNode) (k1 k2 k3 : String) (tail : HForest),
      (processForest (.elem "html" [] exTriForest) exTriSyms [] 0
          exTriForest).1 =
        .cons a1' (.cons (mkDashAnchor k1 "igraph_a")
          (.cons a2' (.cons (mkDashAnchor k2 "igraph_b")
            (.cons a3' (.cons (mkDashAnchor k3 "igraph_c") tail))))) ∧
      isNamedAnchor a1' = some "igraph_a" ∧
      isNamedAnchor a2' = some "igraph_b" ∧
      isNamedAnchor a3' = some "igraph_c" :=
  C4_anchor_injection.2 (.elem "html" [] exTriForest) exTriSyms [] 0
    (.elem "a" [("name", "igraph_a")] .nil)
    (.elem "a" [("name", "igraph_b")] .nil)
    (.elem "a" [("name", "igraph_c")] .nil) .nil
    "igraph_a" "igraph_b" "igraph_c"
    rfl rfl rfl (by decide) (by decide) (by decide)

/-- C5: the rewritten page differs from the input page only by the
injected `dashAnchor` elements: erasing them gives back the input tree
node for node, hence the serialised markup outside the inserted elements
is byte-identical to that of the input page. -/
theorem C5_serialization_frame (syms : SymTable) (page : HNode)
    (h : noDashNode page = true) :
    removeDashNode (processPage syms page).1 = page ∧
    serializeNode (removeDashNode (processPage syms page).1) =
      serializeNode page := by
  have h1 : removeDashNode (processPage syms page).1 = page :=
    removeDash_processNode page syms [] page h
  exact ⟨h1, by rw [h1]⟩

/-- Witness for C5 on the fixture content page. -/
theorem C5_serialization_frame_witness :
    removeDashNode (processPage (exSyms "igraph_foo" "Type" "x.html")
      exStructPage).1 = exStructPage ∧
    serializeNode (removeDashNode (processPage
      (exSyms "igraph_foo" "Type" "x.html") exStructPage).1) =
      serializeNode exStructPage :=
  C5_serialization_frame (exSyms "igraph_foo" "Type" "x.html") exStructPage
    (by decide)

theorem apple_ref_ne (k n : String) :
    "//apple_ref/cpp/" ++ k ++ "/" ++ n ≠ n := by
  intro h
  have hl := congrArg String.length h
  rw [String.length_append, String.length_append, String.length_append] at hl
  have h16 : ("//apple_ref/cpp/" : String).length = 16 := rfl
  have h1 : ("/" : String).length = 1 := rfl
  omega

/-- C7: the refine-and-inject pass is not idempotent: running it a second
time over a page that already contains the injected marker inserts a
second injected sibling immediately after the matched original marker,
duplicating the injected markers instead of detecting and skipping
them. -/
theorem C7_injection_not_idempotent (n k l : String) :
    (processPage (exSyms n k l) (exMarkerPage n)).1 =
      .elem "html" [] (.cons (.elem "a" [("name", n)] .nil)
        (.cons (mkDashAnchor k n) .nil)) ∧
    (processPage (exSyms n k l)
        ((processPage (exSyms n k l) (exMarkerPage n)).1)).1 =
      .elem "html" [] (.cons (.elem "a" [("name", n)] .nil)
        (.cons (mkDashAnchor k n) (.cons (mkDashAnchor k n) .nil))) := by
  have hne : ¬(n = "//apple_ref/cpp/" ++ k ++ "/" ++ n) := fun h =>
    apple_ref_ne k n h.symm
  constructor
  · simp [processPage, processNode, processForest, exMarkerPage, exSyms,
      isNamedAnchor, getAttr, dictLookup, dictInsert, refineKindAt,
      ancestorAt, mkDashAnchor]
  · simp [processPage, processNode, processForest, exMarkerPage, exSyms,
      isNamedAnchor, getAttr, dictLookup, dictInsert, refineKindAt,
      ancestorAt, mkDashAnchor, hne]
